/-
Verification of rng.py: a shallow embedding of the four PRNG state machines
(MiddleSquare, LinearCongruential, LaggedFibonacci, Acorn) and of the
Analyzer's streaming statistics pass, followed by theorems settling the
specification's claims about them.

Conventions of the embedding:
  - Python integers are Int; Python `x % m` is Int.fmod (floored modulo,
    which agrees with Python for every nonzero modulus).
  - Python sets are Finset Int; Python lists are List Int.
  - A StopIteration-raising advance is modelled as a pure step function
    returning the post-call object state together with an Option of the
    emitted value (none = exhaustion signalled).
  - Python decimal strings of nonnegative integers are lists of digits,
    most significant first.
-/
import Mathlib

/-! ## Emitted items

An item produced by one generator advance: three generators emit scalars,
Acorn emits whole lists.  The Analyzer flattens list emissions into scalar
samples (the isinstance branch of Analyzer.analyze). -/

/-- An item emitted by a generator advance: a Python int or a Python list. -/
inductive Item where
  | scalar (v : Int)
  | vector (vs : List Int)

/-- The scalar samples of an emitted item, as flattened by Analyzer.analyze:
a scalar is one sample, a vector contributes each component. -/
def Item.components : Item → List Int
  | Item.scalar v => [v]
  | Item.vector vs => vs

/-! ## MiddleSquare -/

/-- Decimal digit string of a natural number, most significant digit first,
as produced by Python str: str 0 is the single digit 0. -/
def msDigits (n : Nat) : List Nat :=
  if n = 0 then [0] else (Nat.digits 10 n).reverse

/-- Python str.zfill on a digit string: left-pad with zero digits up to
width w (no truncation when the string is already longer). -/
def zfill (w : Nat) (s : List Nat) : List Nat :=
  List.replicate (w - s.length) 0 ++ s

/-- Value of a most-significant-first digit string, as Python int(...) reads
it back. -/
def msfVal (s : List Nat) : Nat :=
  s.foldl (fun a d => 10 * a + d) 0

/-- MiddleSquare object state: the state dict (val, ndigits) together with
the seen_numbers set of all previously emitted values. -/
structure MiddleSquare where
  val : Int
  ndigits : Nat
  seen_numbers : Finset Int
deriving DecidableEq

/-- The value computed inside MiddleSquare.__next__: square the current
value, zero-pad its decimal string to width 2*ndigits, slice out the
characters from index ndigits/2 to 3*ndigits/2 and read them as an int. -/
def msNewVal (val : Int) (d : Nat) : Nat :=
  msfVal (((zfill (2 * d) (msDigits (val * val).toNat)).drop (d / 2)).take
    (3 * d / 2 - d / 2))

/-- MiddleSquare.__next__: the state dict's val is overwritten with the new
middle-square value, then the seen_numbers set decides exhaustion; on
emission the value is added to seen_numbers. -/
def MiddleSquare.next (g : MiddleSquare) : MiddleSquare × Option Int :=
  let v : Int := (msNewVal g.val g.ndigits : Int)
  if v ∈ g.seen_numbers then ({ g with val := v }, none)
  else ({ g with val := v, seen_numbers := insert v g.seen_numbers }, some v)

/-- MiddleSquare.set_state with a payload holding both required keys:
replaces the val/ndigits state wholesale and leaves seen_numbers alone. -/
def MiddleSquare.set_state (g : MiddleSquare) (val : Int) (ndigits : Nat) :
    MiddleSquare :=
  { val := val, ndigits := ndigits, seen_numbers := g.seen_numbers }

/-! ## LinearCongruential -/

/-- LinearCongruential object state: current value, the constants a, c, m,
and the private seen_numbers set. -/
structure LinearCongruential where
  value : Int
  a : Int
  c : Int
  m : Int
  seen_numbers : Finset Int
deriving DecidableEq

/-- LinearCongruential.__next__: stop if the current pre-update value was
seen, else record it, apply the recurrence and emit the new value. -/
def LinearCongruential.next (g : LinearCongruential) :
    LinearCongruential × Option Int :=
  if g.value ∈ g.seen_numbers then (g, none)
  else
    let v := (g.a * g.value + g.c).fmod g.m
    ({ g with value := v, seen_numbers := insert g.value g.seen_numbers },
      some v)

/-- LinearCongruential.set_state: replaces a, c, m and the current value
from the payload and resets the seen_numbers set to empty. -/
def LinearCongruential.set_state (_g : LinearCongruential)
    (val a c m : Int) : LinearCongruential :=
  { value := val, a := a, c := c, m := m, seen_numbers := ∅ }

/-- The list of successive emissions of a LinearCongruential generator,
pulled until exhaustion or until the fuel runs out. -/
def lcgRun : Nat → LinearCongruential → List Int
  | 0, _ => []
  | fuel + 1, g =>
    match g.next with
    | (_, none) => []
    | (g1, some v) => v :: lcgRun fuel g1

/-! ## LaggedFibonacci -/

/-- LaggedFibonacci object state: the state dict (val = sliding window,
j, k, m) and the private copy of the initial seed (field name value,
after the source's self.__value). -/
structure LaggedFibonacci where
  val : List Int
  j : Int
  k : Int
  m : Int
  value : List Int
deriving DecidableEq

/-- The next number of LaggedFibonacci.__next__:
(state[-k] + state[-j]) % m, with Python's negative indexing. -/
def lfNextNumber (g : LaggedFibonacci) : Int :=
  (g.val.getD (g.val.length - g.k.toNat) 0 +
    g.val.getD (g.val.length - g.j.toNat) 0).fmod g.m

/-- LaggedFibonacci.__next__: the window is mutated (append the next
number, pop the oldest) before the exhaustion check against the initial
seed, so the post-call state carries the mutated window either way. -/
def LaggedFibonacci.next (g : LaggedFibonacci) :
    LaggedFibonacci × Option Int :=
  let n := lfNextNumber g
  let w := (g.val ++ [n]).drop 1
  if w = g.value then ({ g with val := w }, none)
  else ({ g with val := w }, some n)

/-- A Python value as far as the constructors' isinstance checks observe
it: an int, a list of Python values, or anything else. -/
inductive PyVal where
  | intVal (n : Int)
  | listVal (xs : List PyVal)
  | other

/-- The two exception kinds raised by the constructors. -/
inductive PyErr where
  | typeErr
  | valueErr
deriving DecidableEq

/-- Reads a list of Python values as a list of ints, failing on the first
element that is not an int (the element loop of the constructors). -/
def toIntList : List PyVal → Option (List Int)
  | [] => some []
  | PyVal.intVal n :: rest => (toIntList rest).map (fun l => n :: l)
  | _ :: _ => none

/-- LaggedFibonacci.__init__: seed must be a list (TypeError), all its
elements ints (TypeError), m an int (ValueError), and 0 < j < k <= len
(ValueError); otherwise the object is built with the seed as window and
a copy of it as the initial-seed snapshot. -/
def LaggedFibonacci.init (seed : PyVal) (j k : Int) (m : PyVal) :
    Except PyErr LaggedFibonacci :=
  match seed with
  | PyVal.listVal xs =>
    match toIntList xs with
    | none => Except.error PyErr.typeErr
    | some ns =>
      match m with
      | PyVal.intVal mi =>
        if 0 < j ∧ j < k ∧ k ≤ (ns.length : Int) then
          Except.ok { val := ns, j := j, k := k, m := mi, value := ns }
        else Except.error PyErr.valueErr
      | _ => Except.error PyErr.valueErr
  | _ => Except.error PyErr.typeErr

/-! ## Acorn -/

/-- Acorn object state: the state dict's vals list and modulus M, plus the
initial seed kept for the exhaustion comparison. -/
structure Acorn where
  vals : List Int
  M : Int
  seed : List Int
deriving DecidableEq

/-- The loop body of Acorn.__next__ building new_vals one element at a
time: each appended element is (previous new element + old element) % M. -/
def acornTail (M : Int) : Int → List Int → List Int
  | _, [] => []
  | prev, x :: rest =>
    ((prev + x).fmod M) :: acornTail M ((prev + x).fmod M) rest

/-- The full new_vals vector of Acorn.__next__: the head of the old vector
unchanged, then the cumulative-sum recurrence. -/
def acornVals (M : Int) : List Int → List Int
  | [] => []
  | v :: rest => v :: acornTail M v rest

/-- Acorn.__next__: build new_vals, stop (leaving state.vals untouched)
when it equals the original seed, otherwise store and emit it. -/
def Acorn.next (g : Acorn) : Acorn × Option (List Int) :=
  let new := acornVals g.M g.vals
  if new = g.seed then (g, none)
  else ({ g with vals := new }, some new)

/-! ## Analyzer -/

/-- Number of binary digits of a natural number (0 for 0), computed with
explicit fuel so that it evaluates by kernel reduction. -/
def natBitsAux : Nat → Nat → Nat
  | 0, _ => 0
  | fuel + 1, n => if n = 0 then 0 else natBitsAux fuel (n / 2) + 1

/-- Number of binary digits of a natural number; natBits 0 = 0. -/
def natBits (n : Nat) : Nat := natBitsAux n n

/-- Python len(bin(m)) - 2: the number of binary digits for positive m,
1 for 0, and one extra character for the sign of a negative number. -/
def pyBinLen (m : Int) : Nat :=
  if 0 ≤ m then max 1 (natBits m.toNat) else natBits (-m).toNat + 1

/-- Python num & (1 <<< i) != 0 for arbitrary ints: bit i of the infinite
two's complement expansion, read off the floored remainder mod 2^(i+1). -/
def pyTestBit (num : Int) (i : Nat) : Bool :=
  ((num.fmod (2 ^ (i + 1))).toNat).testBit i

/-- The inner bit loop of Analyzer.analyze: walk the frequency list from
index i, incrementing every position below bitLen whose bit is set in num. -/
def addBits (num : Int) (bitLen : Nat) : Nat → List Nat → List Nat
  | _, [] => []
  | i, cnt :: rest =>
    (if i < bitLen ∧ pyTestBit num i then cnt + 1 else cnt) ::
      addBits num bitLen (i + 1) rest

/-- The max update of Analyzer.analyze (strict comparison, None start). -/
def updMax : Option Int → Int → Int
  | none, num => num
  | some m, num => if m < num then num else m

/-- The min update of Analyzer.analyze (strict comparison, None start). -/
def updMin : Option Int → Int → Int
  | none, num => num
  | some m, num => if num < m then num else m

/-- The Analyzer's accumulators during analyze: the object fields min, max,
bit_freqs plus the local total, count and seen_numbers of the pass. -/
structure AState where
  minv : Option Int
  maxv : Option Int
  total : Int
  count : Nat
  bitFreqs : List Nat
  seen : Finset Int
deriving DecidableEq

/-- The accumulators of a freshly constructed Analyzer at the start of an
analyze call. -/
def AState.start : AState :=
  { minv := none, maxv := none, total := 0, count := 0, bitFreqs := [],
    seen := ∅ }

/-- The per-sample body of Analyzer.analyze: update min, max and total,
extend bit_freqs with zeros up to len(bin(max)) - 2, increment the set
bits of the sample, record it in seen_numbers, bump count. -/
def processSample (st : AState) (num : Int) : AState :=
  let newMin := updMin st.minv num
  let newMax := updMax st.maxv num
  let bitLen := pyBinLen newMax
  let ext := st.bitFreqs ++ List.replicate (bitLen - st.bitFreqs.length) 0
  { minv := some newMin, maxv := some newMax, total := st.total + num,
    count := st.count + 1, bitFreqs := addBits num bitLen 0 ext,
    seen := insert num st.seen }

/-- Processing of one emitted item: every scalar component in order. -/
def processItem (st : AState) (it : Item) : AState :=
  it.components.foldl processSample st

/-- The streaming loop of Analyzer.analyze over an arbitrary generator,
given as a pure step function (none = StopIteration): pull an item, break
when count has reached max_nums, otherwise process the item and continue.
The fuel bounds the modelled number of loop iterations. -/
def analyzeLoop {σ : Type} (step : σ → Option (σ × Item)) (maxNums : Nat) :
    Nat → σ → AState → AState
  | 0, _, st => st
  | fuel + 1, g, st =>
    match step g with
    | none => st
    | some (g1, it) =>
      if maxNums ≤ st.count then st
      else analyzeLoop step maxNums fuel g1 (processItem st it)

/-- The flattened list of scalar samples actually processed by the loop,
starting from a current count of c. -/
def processedSamples {σ : Type} (step : σ → Option (σ × Item))
    (maxNums : Nat) : Nat → σ → Nat → List Int
  | 0, _, _ => []
  | fuel + 1, g, c =>
    match step g with
    | none => []
    | some (g1, it) =>
      if maxNums ≤ c then []
      else it.components ++
        processedSamples step maxNums fuel g1 (c + it.components.length)

/-- The Analyzer fields after an analyze call. -/
structure Report where
  minv : Option Int
  maxv : Option Int
  average : ℚ
  period : Nat
  bitFreqs : List Nat

/-- Analyzer.analyze on a freshly constructed Analyzer: run the streaming
loop, then set average (0 on an empty run) and the variant-dependent
period: size of the seen_numbers set when the wrapped generator is an
Acorn instance, total sample count otherwise. -/
def analyze {σ : Type} (isAcorn : Bool) (step : σ → Option (σ × Item))
    (fuel maxNums : Nat) (g : σ) : Report :=
  let st := analyzeLoop step maxNums fuel g AState.start
  { minv := st.minv, maxv := st.maxv,
    average := if 0 < st.count then (st.total : ℚ) / (st.count : ℚ) else 0,
    period := if isAcorn then st.seen.card else st.count,
    bitFreqs := st.bitFreqs }

/-- The Sequence view of a LinearCongruential generator: scalar items. -/
def lcgStep (g : LinearCongruential) :
    Option (LinearCongruential × Item) :=
  match g.next with
  | (_, none) => none
  | (g1, some v) => some (g1, Item.scalar v)

/-- The Sequence view of an Acorn generator: vector items. -/
def acornStep (g : Acorn) : Option (Acorn × Item) :=
  match g.next with
  | (_, none) => none
  | (g1, some vs) => some (g1, Item.vector vs)

/-- A degenerate scalar generator that always emits 5, used to instantiate
general Analyzer theorems at a concrete input. -/
def oneGen : Unit → Option (Unit × Item) :=
  fun _ => some ((), Item.scalar 5)

/-- The Acorn instance built by the driver script:
seed [1,5,6,4,4,5,8,9,4], M = 12356. -/
def acornDriver : Acorn :=
  { vals := [1, 5, 6, 4, 4, 5, 8, 9, 4], M := 12356,
    seed := [1, 5, 6, 4, 4, 5, 8, 9, 4] }

/-- A LaggedFibonacci generator two advances after construction from seed
[0, 1] with j = 1, k = 2, m = 2: the window is [1, 0] and the next advance
will reproduce the initial seed and signal exhaustion. -/
def laggedDemo : LaggedFibonacci :=
  { val := [1, 0], j := 1, k := 2, m := 2, value := [0, 1] }

/-! ## Theorems -/

/-- Claim C4: LinearCongruential.__next__ first checks whether the current
pre-update value is in the seen set and signals exhaustion if so;
otherwise it records the current value as seen, computes
(a * current + c) mod m, stores it as the new current value and emits
it. -/
theorem lcg_advance_rule (g : LinearCongruential) :
    ((g.next).2 = none ↔ g.value ∈ g.seen_numbers) ∧
    (g.value ∈ g.seen_numbers → g.next = (g, none)) ∧
    (g.value ∉ g.seen_numbers →
      g.next =
        ({ value := (g.a * g.value + g.c).fmod g.m, a := g.a, c := g.c,
           m := g.m, seen_numbers := insert g.value g.seen_numbers },
         some ((g.a * g.value + g.c).fmod g.m))) := by
  unfold LinearCongruential.next
  by_cases h : g.value ∈ g.seen_numbers <;> simp [h]

/-- Witness for lcg_advance_rule at the driver's generator
LinearCongruential(36, 455, 9126, 879). -/
theorem lcg_advance_rule_witness :
    (LinearCongruential.next
      { value := 36, a := 455, c := 9126, m := 879,
        seen_numbers := ∅ }).2 =
      some (((455 : Int) * 36 + 9126).fmod 879) := by
  have h := (lcg_advance_rule
    { value := 36, a := 455, c := 9126, m := 879, seen_numbers := ∅ }).2.2
    (by decide)
  rw [h]

/-- Claim C8: the two state imports are asymmetric. MiddleSquare.set_state
replaces val and ndigits wholesale (no check of ndigits against the
original) and leaves seen_numbers unchanged; LinearCongruential.set_state
replaces a, c, m and the current value and resets its seen set to empty. -/
theorem set_state_asymmetry :
    (∀ (g : MiddleSquare) (v : Int) (nd : Nat),
      g.set_state v nd =
        { val := v, ndigits := nd, seen_numbers := g.seen_numbers }) ∧
    (∀ (g : LinearCongruential) (v a c m : Int),
      g.set_state v a c m =
        { value := v, a := a, c := c, m := m, seen_numbers := ∅ }) :=
  ⟨fun _ _ _ => rfl, fun _ _ _ _ _ => rfl⟩

/-- Counterexample to claim C7 as stated: the seed 10 has an even number
of decimal digits and the modulus 7 is positive, yet
LinearCongruential(10, a = 1, c = 0, m = 7) emits two values (3 then 3)
before signalling exhaustion, and neither repeats the seed. -/
theorem lcg_identity_two_emissions :
    lcgRun 5 { value := 10, a := 1, c := 0, m := 7, seen_numbers := ∅ } =
      [3, 3] := by decide

/-- Claim C7 as amended: when additionally 0 <= seed < m, a
LinearCongruential generator with a = 1 and c = 0 emits exactly one value,
the seed itself, and then signals exhaustion (for seeds outside [0, m) the
generator instead emits seed mod m twice). -/
theorem lcg_identity_run (seed m : Int) (fuel : Nat) (h0 : 0 ≤ seed)
    (hm : seed < m) :
    lcgRun (fuel + 2)
      { value := seed, a := 1, c := 0, m := m, seen_numbers := ∅ } =
      [seed] := by
  have hv : seed.fmod m = seed := Int.fmod_eq_of_lt h0 hm
  simp [lcgRun, LinearCongruential.next, hv]

/-- Witness for lcg_identity_run: seed 3, modulus 7. -/
theorem lcg_identity_run_witness :
    lcgRun 2 { value := 3, a := 1, c := 0, m := 7, seen_numbers := ∅ } =
      [3] :=
  lcg_identity_run 3 7 0 (by decide) (by decide)

/-- Folding the per-sample body over a sample list adds the list length to
the running count. -/
theorem foldl_processSample_count (l : List Int) :
    ∀ st : AState,
      (List.foldl processSample st l).count = st.count + l.length := by
  induction l with
  | nil => intro st; simp
  | cons x t ih =>
    intro st
    rw [List.foldl_cons, ih]
    simp [processSample]
    omega

/-- Processing one item adds its component count to the running count. -/
theorem processItem_count (st : AState) (it : Item) :
    (processItem st it).count = st.count + it.components.length :=
  foldl_processSample_count it.components st

/-- Folding the per-sample body over a sample list unions the samples into
the seen set. -/
theorem foldl_processSample_seen (l : List Int) :
    ∀ st : AState,
      (List.foldl processSample st l).seen = st.seen ∪ l.toFinset := by
  induction l with
  | nil => intro st; simp
  | cons x t ih =>
    intro st
    rw [List.foldl_cons, ih]
    ext a
    simp [processSample, List.toFinset_cons]
    try tauto

/-- The streaming loop is the fold of the per-sample body over the list of
samples it actually processes. -/
theorem analyzeLoop_eq_foldl {σ : Type} (step : σ → Option (σ × Item))
    (maxNums : Nat) :
    ∀ (fuel : Nat) (g : σ) (st : AState),
      analyzeLoop step maxNums fuel g st =
        List.foldl processSample st
          (processedSamples step maxNums fuel g st.count) := by
  intro fuel
  induction fuel with
  | zero => intro g st; rfl
  | succ n ih =>
    intro g st
    simp only [analyzeLoop, processedSamples]
    cases hstep : step g with
    | none => simp
    | some pr =>
      obtain ⟨g1, it⟩ := pr
      by_cases hcnt : maxNums ≤ st.count
      · simp [hcnt]
      · simp only [if_neg hcnt]
        rw [List.foldl_append]
        have hc : st.count + it.components.length =
            (processItem st it).count := (processItem_count st it).symm
        rw [hc]
        exact ih g1 (processItem st it)

/-- Claim C1: the period reported by analyze follows the variant-specific
rule: for an Acorn generator it is the number of distinct scalar values
among all individual samples processed (hence at most the sample count),
for every other generator it is the total number of samples processed. -/
theorem analyzer_period_rule {σ : Type} (isAcorn : Bool)
    (step : σ → Option (σ × Item)) (fuel maxNums : Nat) (g : σ) :
    ((analyze isAcorn step fuel maxNums g).period =
      if isAcorn then (processedSamples step maxNums fuel g 0).toFinset.card
      else (processedSamples step maxNums fuel g 0).length) ∧
    (processedSamples step maxNums fuel g 0).toFinset.card ≤
      (processedSamples step maxNums fuel g 0).length := by
  have hloop := analyzeLoop_eq_foldl step maxNums fuel g AState.start
  rw [show AState.start.count = 0 from rfl] at hloop
  constructor
  · simp only [analyze, hloop, foldl_processSample_count,
      foldl_processSample_seen]
    by_cases h : isAcorn <;> simp [h, AState.start]
  · exact List.toFinset_card_le _

/-- Claim C2 as amended: the loop checks the count bound only between
emitted items, so when every emitted item has at most L scalar components
(L at least 1), the number of samples processed is at most
max_samples + (L - 1); for scalar-only generators (L = 1) it therefore
never exceeds max_samples, but a vector emission straddling the bound can
push it past max_samples. -/
theorem analyzer_sample_cap {σ : Type} (step : σ → Option (σ × Item))
    (fuel maxNums L : Nat) (g : σ) (hL : 1 ≤ L)
    (hstep : ∀ g1 g2 it, step g1 = some (g2, it) →
      it.components.length ≤ L) :
    (analyzeLoop step maxNums fuel g AState.start).count ≤
      maxNums + (L - 1) := by
  have key : ∀ (f : Nat) (g0 : σ) (st : AState),
      st.count ≤ maxNums + (L - 1) →
      (analyzeLoop step maxNums f g0 st).count ≤ maxNums + (L - 1) := by
    intro f
    induction f with
    | zero => intro g0 st h; exact h
    | succ n ih =>
      intro g0 st h
      simp only [analyzeLoop]
      cases hstep2 : step g0 with
      | none => exact h
      | some pr =>
        obtain ⟨g1, it⟩ := pr
        by_cases hcnt : maxNums ≤ st.count
        · simpa [hcnt] using h
        · simp only [if_neg hcnt]
          apply ih
          rw [processItem_count]
          have hlen := hstep g0 g1 it hstep2
          omega
  exact key fuel g AState.start (by simp [AState.start])

/-- Counterexample to claim C2 as stated: analyzing the Acorn generator
with seed [1, 1] and M = 3 under the bound max_samples = 1 processes two
samples (the two components of the first emitted vector), exceeding the
bound. -/
theorem analyzer_sample_cap_cex :
    (analyzeLoop acornStep 1 5 { vals := [1, 1], M := 3, seed := [1, 1] }
      AState.start).count = 2 := by decide

/-- Witness for analyzer_sample_cap: a scalar generator with bound 3 stays
at or below 3 processed samples. -/
theorem analyzer_sample_cap_witness :
    (analyzeLoop oneGen 3 10 () AState.start).count ≤ 3 + (1 - 1) :=
  analyzer_sample_cap oneGen 10 3 1 () (le_refl 1)
    (by
      intro g1 g2 it h
      simp only [oneGen, Option.some.injEq, Prod.mk.injEq] at h
      rw [← h.2]
      decide)

/-- natBitsAux of 0 is 0 whatever the fuel. -/
theorem natBitsAux_zero (f : Nat) : natBitsAux f 0 = 0 := by
  cases f <;> simp [natBitsAux]

/-- natBitsAux is independent of the fuel once the fuel covers the input. -/
theorem natBitsAux_stable (n : Nat) :
    ∀ (f1 f2 : Nat), n ≤ f1 → n ≤ f2 →
      natBitsAux f1 n = natBitsAux f2 n := by
  induction n using Nat.strong_induction_on with
  | _ n ih =>
    intro f1 f2 h1 h2
    rcases Nat.eq_zero_or_pos n with hn | hn
    · subst hn; rw [natBitsAux_zero, natBitsAux_zero]
    · obtain ⟨a, rfl⟩ : ∃ a, f1 = a + 1 := ⟨f1 - 1, by omega⟩
      obtain ⟨b, rfl⟩ : ∃ b, f2 = b + 1 := ⟨f2 - 1, by omega⟩
      have hne : n ≠ 0 := by omega
      simp only [natBitsAux, if_neg hne]
      have hdiv : n / 2 < n := Nat.div_lt_self hn (by omega)
      rw [ih (n / 2) hdiv a b (by omega) (by omega)]

/-- The defining recurrence of natBits on positive inputs. -/
theorem natBits_pos_eq (n : Nat) (hn : n ≠ 0) :
    natBits n = natBits (n / 2) + 1 := by
  unfold natBits
  obtain ⟨a, rfl⟩ : ∃ a, n = a + 1 := ⟨n - 1, by omega⟩
  simp only [natBitsAux, if_neg hn]
  congr 1
  exact natBitsAux_stable ((a + 1) / 2) a ((a + 1) / 2) (by omega)
    (le_refl _)

/-- natBits is monotone. -/
theorem natBits_mono : ∀ (m n : Nat), m ≤ n → natBits m ≤ natBits n := by
  intro m
  induction m using Nat.strong_induction_on with
  | _ m ih =>
    intro n hmn
    rcases Nat.eq_zero_or_pos m with hm | hm
    · subst hm; simp [natBits, natBitsAux_zero]
    · have hn : n ≠ 0 := by omega
      rw [natBits_pos_eq m (by omega), natBits_pos_eq n hn]
      have := ih (m / 2) (Nat.div_lt_self hm (by omega)) (n / 2)
        (Nat.div_le_div_right hmn)
      omega

/-- pyBinLen on nonnegative numbers is the binary length, floored at 1. -/
theorem pyBinLen_nonneg_eq (m : Int) (h : 0 ≤ m) :
    pyBinLen m = max 1 (natBits m.toNat) := by
  simp [pyBinLen, h]

/-- pyBinLen is monotone on nonnegative numbers. -/
theorem pyBinLen_mono (a b : Int) (ha : 0 ≤ a) (hab : a ≤ b) :
    pyBinLen a ≤ pyBinLen b := by
  have hb : 0 ≤ b := le_trans ha hab
  rw [pyBinLen_nonneg_eq a ha, pyBinLen_nonneg_eq b hb]
  exact max_le_max (le_refl 1)
    (natBits_mono a.toNat b.toNat (Int.toNat_le_toNat hab))

/-- The bit-increment walk preserves the list length. -/
theorem addBits_length (num : Int) (bl : Nat) :
    ∀ (l : List Nat) (i : Nat), (addBits num bl i l).length = l.length := by
  intro l
  induction l with
  | nil => intro i; rfl
  | cons a t ih => intro i; simp [addBits, ih]

/-- Every entry after the bit-increment walk is at most one more than some
entry of the input list. -/
theorem addBits_mem (num : Int) (bl : Nat) :
    ∀ (l : List Nat) (i : Nat) (c : Nat),
      c ∈ addBits num bl i l → ∃ y ∈ l, c ≤ y + 1 := by
  intro l
  induction l with
  | nil => intro i c h; simp [addBits] at h
  | cons a t ih =>
    intro i c h
    simp only [addBits, List.mem_cons] at h
    rcases h with h | h
    · refine ⟨a, List.mem_cons_self a t, ?_⟩
      split at h <;> omega
    · obtain ⟨y, hy, hc⟩ := ih (i + 1) c h
      exact ⟨y, List.mem_cons_of_mem a hy, hc⟩

/-- The bit-frequency list after one sample has length the maximum of the
old length and the bin length of the updated maximum. -/
theorem processSample_bitFreqs_length (st : AState) (num : Int) :
    (processSample st num).bitFreqs.length =
      max st.bitFreqs.length (pyBinLen (updMax st.maxv num)) := by
  simp [processSample, addBits_length]
  omega

/-- Every bit-frequency entry grows by at most one per processed sample. -/
theorem processSample_entries (st : AState) (num : Int)
    (h : ∀ c ∈ st.bitFreqs, c ≤ st.count) :
    ∀ c ∈ (processSample st num).bitFreqs, c ≤ st.count + 1 := by
  intro c hc
  simp only [processSample] at hc
  obtain ⟨y, hy, hcy⟩ := addBits_mem _ _ _ 0 c hc
  rcases List.mem_append.mp hy with hy1 | hy2
  · have := h y hy1; omega
  · have : y = 0 := List.eq_of_mem_replicate hy2
    omega

/-- Over any sample list, every bit-frequency entry stays at most the
sample count. -/
theorem foldl_entries (l : List Int) :
    ∀ st : AState, (∀ c ∈ st.bitFreqs, c ≤ st.count) →
      ∀ c ∈ (List.foldl processSample st l).bitFreqs,
        c ≤ (List.foldl processSample st l).count := by
  induction l with
  | nil => intro st h; simpa using h
  | cons x t ih =>
    intro st h
    rw [List.foldl_cons]
    apply ih
    intro c hc
    have h2 := processSample_entries st x h c hc
    simpa [processSample] using h2

/-- One-sample preservation facts about the running maximum. -/
theorem updMax_some_le (m x : Int) : m ≤ updMax (some m) x := by
  simp [updMax]; split <;> omega

/-- Over a list of nonnegative samples, the running maximum is nonnegative
and the bit-frequency list never grows beyond the bin length of the
running maximum (and stays empty while no sample was seen). -/
theorem foldl_bitlen (l : List Int) :
    ∀ st : AState, (∀ x ∈ l, 0 ≤ x) →
      (st.maxv = none → st.bitFreqs = []) →
      (∀ m, st.maxv = some m → 0 ≤ m ∧
        st.bitFreqs.length ≤ pyBinLen m) →
      ((List.foldl processSample st l).maxv = none →
        (List.foldl processSample st l).bitFreqs = []) ∧
      (∀ m, (List.foldl processSample st l).maxv = some m → 0 ≤ m ∧
        (List.foldl processSample st l).bitFreqs.length ≤ pyBinLen m) := by
  induction l with
  | nil => intro st _ h1 h2; exact ⟨h1, h2⟩
  | cons x t ih =>
    intro st hpos h1 h2
    rw [List.foldl_cons]
    apply ih
    · intro y hy; exact hpos y (List.mem_cons_of_mem x hy)
    · intro hnone; simp [processSample] at hnone
    · intro m hm
      have hx : 0 ≤ x := hpos x (List.mem_cons_self x t)
      have hmax : (processSample st x).maxv = some (updMax st.maxv x) := by
        simp [processSample]
      rw [hmax] at hm
      injection hm with hm
      subst hm
      constructor
      · cases hmv : st.maxv with
        | none => simpa [updMax] using hx
        | some m0 =>
          have h0 : 0 ≤ m0 := (h2 m0 hmv).1
          simp [updMax]; split <;> omega
      · rw [processSample_bitFreqs_length]
        cases hmv : st.maxv with
        | none =>
          have hempty := h1 hmv
          simp [hempty, hmv]
        | some m0 =>
          obtain ⟨h0, hlen⟩ := h2 m0 hmv
          have hmono := pyBinLen_mono m0 (updMax (some m0) x) h0
            (updMax_some_le m0 x)
          exact sup_le (le_trans hlen hmono) (le_refl _)

/-- Claim C6 as amended: after a fresh analyze run whose samples are all
nonnegative, the bit_freqs list is empty when no sample was seen, its
length never exceeds max(1, bit_length(max_value_seen)) (the stated bound
bit_length(max_value_seen) alone fails when the maximum is 0, where the
length is 1), and every entry is at most the number of samples
processed. -/
theorem analyzer_bitfreq_bounds {σ : Type} (isAcorn : Bool)
    (step : σ → Option (σ × Item)) (fuel maxNums : Nat) (g : σ)
    (hpos : ∀ x ∈ processedSamples step maxNums fuel g 0, 0 ≤ x) :
    ((analyze isAcorn step fuel maxNums g).maxv = none →
      (analyze isAcorn step fuel maxNums g).bitFreqs = []) ∧
    (∀ m, (analyze isAcorn step fuel maxNums g).maxv = some m →
      (analyze isAcorn step fuel maxNums g).bitFreqs.length ≤
        max 1 (natBits m.toNat)) ∧
    (∀ c ∈ (analyze isAcorn step fuel maxNums g).bitFreqs,
      c ≤ (processedSamples step maxNums fuel g 0).length) := by
  have hloop := analyzeLoop_eq_foldl step maxNums fuel g AState.start
  rw [show AState.start.count = 0 from rfl] at hloop
  have hbit := foldl_bitlen (processedSamples step maxNums fuel g 0)
    AState.start hpos (fun _ => rfl)
    (by intro m hm; simp [AState.start] at hm)
  have hent := foldl_entries (processedSamples step maxNums fuel g 0)
    AState.start (by intro c hc; simp [AState.start] at hc)
  have hcount := foldl_processSample_count
    (processedSamples step maxNums fuel g 0) AState.start
  refine ⟨?_, ?_, ?_⟩
  · intro hnone
    simp only [analyze] at hnone ⊢
    rw [hloop] at hnone ⊢
    exact hbit.1 hnone
  · intro m hm
    simp only [analyze] at hm ⊢
    rw [hloop] at hm ⊢
    have h := hbit.2 m hm
    rw [pyBinLen_nonneg_eq m h.1] at h
    exact h.2
  · intro c hc
    simp only [analyze] at hc
    rw [hloop] at hc
    have h := hent c hc
    rw [hcount] at h
    simpa [AState.start] using h

/-- Counterexample to claim C6 as stated: analyzing
LinearCongruential(0, 0, 0, 1) processes the single sample 0, so the
maximum observed value is 0 with bit_length 0, yet bit_freqs has length
1 (the code extends it to len(bin(0)) - 2 = 1 positions). -/
theorem analyzer_bitlen_exceeds :
    (analyze false lcgStep 5 100000
      { value := 0, a := 0, c := 0, m := 1, seen_numbers := ∅ }).maxv =
      some 0 ∧
    (analyze false lcgStep 5 100000
      { value := 0, a := 0, c := 0, m := 1,
        seen_numbers := ∅ }).bitFreqs.length = 1 ∧
    natBits (0 : Int).toNat = 0 :=
  ⟨by decide, by decide, rfl⟩

/-- Witness for analyzer_bitfreq_bounds on the same concrete run. -/
theorem analyzer_bitfreq_bounds_witness :
    (analyze false lcgStep 5 100000
      { value := 0, a := 0, c := 0, m := 1,
        seen_numbers := ∅ }).bitFreqs.length ≤
      max 1 (natBits (0 : Int).toNat) :=
  (analyzer_bitfreq_bounds false lcgStep 5 100000
    { value := 0, a := 0, c := 0, m := 1, seen_numbers := ∅ }
    (by decide)).2.1 0 (by decide)

/-- The loop body of Acorn.__next__ preserves the length of the vector it
walks. -/
theorem acornTail_length (M : Int) (l : List Int) :
    ∀ p, (acornTail M p l).length = l.length := by
  induction l with
  | nil => intro p; rfl
  | cons x rest ih => intro p; simp [acornTail, ih]

/-- Pointwise description of the loop body of Acorn.__next__: element i of
the produced tail is (previous produced element + old element) mod M. -/
theorem acornTail_getD (M : Int) (l : List Int) :
    ∀ (v : Int) (i : Nat), i < l.length →
      (acornTail M v l).getD i 0 =
        (((v :: acornTail M v l).getD i 0) + l.getD i 0).fmod M := by
  induction l with
  | nil => intro v i h; simp at h
  | cons x rest ih =>
    intro v i h
    cases i with
    | zero => simp [acornTail]
    | succ j =>
      have hj : j < rest.length := by simpa using h
      simpa [acornTail] using ih ((v + x).fmod M) j hj

/-- Claim C5: Acorn.__next__ computes a fresh vector with head unchanged
and element i + 1 equal to (element i of the new vector + old element
i + 1) mod M, signals exhaustion exactly when the new vector equals the
original seed, and otherwise stores and emits the whole new vector; on the
driver's instance (seed [1,5,6,4,4,5,8,9,4], M = 12356) the first emitted
vector has element 0 equal to 1 and element 1 equal to 6. -/
theorem acorn_advance_rule (g : Acorn) (hv : g.vals ≠ []) (_hM : g.M ≠ 0) :
    (acornVals g.M g.vals).length = g.vals.length ∧
    (acornVals g.M g.vals).getD 0 0 = g.vals.getD 0 0 ∧
    (∀ i, i + 1 < g.vals.length →
      (acornVals g.M g.vals).getD (i + 1) 0 =
        ((acornVals g.M g.vals).getD i 0 + g.vals.getD (i + 1) 0).fmod
          g.M) ∧
    ((g.next).2 = none ↔ acornVals g.M g.vals = g.seed) ∧
    (acornVals g.M g.vals ≠ g.seed →
      g.next = ({ g with vals := acornVals g.M g.vals },
        some (acornVals g.M g.vals))) ∧
    (Acorn.next acornDriver).2.map (fun l => (l.getD 0 0, l.getD 1 0)) =
      some (1, 6) := by
  obtain ⟨v, rest, hvr⟩ : ∃ v rest, g.vals = v :: rest := by
    cases hl : g.vals with
    | nil => exact absurd hl hv
    | cons a t => exact ⟨a, t, rfl⟩
  refine ⟨?_, ?_, ?_, ?_, ?_, by decide⟩
  · rw [hvr]; simp [acornVals, acornTail_length]
  · rw [hvr]; simp [acornVals]
  · intro i hi
    rw [hvr] at hi ⊢
    have hlen : i < rest.length := by simpa using hi
    simpa [acornVals] using acornTail_getD g.M rest v i hlen
  · unfold Acorn.next
    by_cases h : acornVals g.M g.vals = g.seed <;> simp [h]
  · intro hne
    simp [Acorn.next, hne]

/-- Witness for acorn_advance_rule at the driver's Acorn instance. -/
theorem acorn_advance_rule_witness :
    (Acorn.next acornDriver).2 = none ↔
      acornVals acornDriver.M acornDriver.vals = acornDriver.seed :=
  (acorn_advance_rule acornDriver (by decide) (by decide)).2.2.2.1

/-- Claim C9: LaggedFibonacci construction validates eagerly: a type error
when the seed is not a list of integers, an invalid-parameter (value)
error when m is not an integer or 0 < j < k <= len(seed) fails, and
otherwise it succeeds, returning the fully built generator; nothing is
deferred to the first advance. -/
theorem lagged_fib_init_validation (seed : PyVal) (j k : Int) (m : PyVal) :
    ((∃ g, LaggedFibonacci.init seed j k m = Except.ok g) ↔
      (∃ xs ns mi, seed = PyVal.listVal xs ∧ toIntList xs = some ns ∧
        m = PyVal.intVal mi ∧ 0 < j ∧ j < k ∧ k ≤ (ns.length : Int))) ∧
    ((∀ xs, seed ≠ PyVal.listVal xs) →
      LaggedFibonacci.init seed j k m = Except.error PyErr.typeErr) ∧
    (∀ xs, seed = PyVal.listVal xs → toIntList xs = none →
      LaggedFibonacci.init seed j k m = Except.error PyErr.typeErr) ∧
    (∀ xs ns, seed = PyVal.listVal xs → toIntList xs = some ns →
      (∀ mi, m ≠ PyVal.intVal mi) →
      LaggedFibonacci.init seed j k m = Except.error PyErr.valueErr) ∧
    (∀ xs ns mi, seed = PyVal.listVal xs → toIntList xs = some ns →
      m = PyVal.intVal mi → ¬(0 < j ∧ j < k ∧ k ≤ (ns.length : Int)) →
      LaggedFibonacci.init seed j k m = Except.error PyErr.valueErr) ∧
    (∀ xs ns mi, seed = PyVal.listVal xs → toIntList xs = some ns →
      m = PyVal.intVal mi → (0 < j ∧ j < k ∧ k ≤ (ns.length : Int)) →
      LaggedFibonacci.init seed j k m =
        Except.ok { val := ns, j := j, k := k, m := mi, value := ns }) := by
  refine ⟨⟨?_, ?_⟩, ?_, ?_, ?_, ?_, ?_⟩
  · rintro ⟨g, hg⟩
    cases seed with
    | intVal n => simp [LaggedFibonacci.init] at hg
    | other => simp [LaggedFibonacci.init] at hg
    | listVal xs =>
      cases h2 : toIntList xs with
      | none => simp [LaggedFibonacci.init, h2] at hg
      | some ns =>
        cases m with
        | intVal mi =>
          by_cases h4 : 0 < j ∧ j < k ∧ k ≤ (ns.length : Int)
          · exact ⟨xs, ns, mi, rfl, h2, rfl, h4.1, h4.2.1, h4.2.2⟩
          · simp [LaggedFibonacci.init, h2, h4] at hg
        | listVal l => simp [LaggedFibonacci.init, h2] at hg
        | other => simp [LaggedFibonacci.init, h2] at hg
  · rintro ⟨xs, ns, mi, rfl, h2, rfl, h4, h5, h6⟩
    exact ⟨{ val := ns, j := j, k := k, m := mi, value := ns },
      by simp [LaggedFibonacci.init, h2, h4, h5, h6]⟩
  · intro h
    cases seed with
    | intVal n => rfl
    | other => rfl
    | listVal xs => exact absurd rfl (h xs)
  · rintro xs rfl h2
    simp [LaggedFibonacci.init, h2]
  · rintro xs ns rfl h2 hm
    cases m with
    | intVal mi => exact absurd rfl (hm mi)
    | listVal l => simp [LaggedFibonacci.init, h2]
    | other => simp [LaggedFibonacci.init, h2]
  · rintro xs ns mi rfl h2 rfl h4
    simp [LaggedFibonacci.init, h2, h4]
  · rintro xs ns mi rfl h2 rfl h4
    simp [LaggedFibonacci.init, h2, h4.1, h4.2.1, h4.2.2]

/-- Witness for lagged_fib_init_validation: a valid construction from seed
[1, 2] with j = 1, k = 2, m = 3 succeeds with the expected state. -/
theorem lagged_fib_init_validation_witness :
    LaggedFibonacci.init (PyVal.listVal [PyVal.intVal 1, PyVal.intVal 2])
      1 2 (PyVal.intVal 3) =
      Except.ok { val := [1, 2], j := 1, k := 2, m := 3,
                  value := [1, 2] } :=
  (lagged_fib_init_validation
    (PyVal.listVal [PyVal.intVal 1, PyVal.intVal 2]) 1 2
    (PyVal.intVal 3)).2.2.2.2.2 [PyVal.intVal 1, PyVal.intVal 2] [1, 2] 3
    rfl rfl rfl (by refine ⟨by decide, by decide, ?_⟩; decide)

/-- Claim C10: an exhausting Acorn advance leaves the state vals untouched
(the check precedes the store), while a LaggedFibonacci advance always
carries the mutated window (drop the oldest element, append the next
number) into the post-call state, even on the advance that signals
exhaustion; laggedDemo exhibits an exhausting advance whose window
differs from the pre-call window. -/
theorem exhaust_state_effects :
    (∀ (g : Acorn), g.M ≠ 0 → (g.next).2 = none → (g.next).1 = g) ∧
    (∀ (g : LaggedFibonacci), g.val ≠ [] →
      ((g.next).1).val = g.val.drop 1 ++ [lfNextNumber g]) ∧
    ((LaggedFibonacci.next laggedDemo).2 = none ∧
      (LaggedFibonacci.next laggedDemo).1.val ≠ laggedDemo.val) := by
  refine ⟨?_, ?_, by decide, by decide⟩
  · intro g _ h
    by_cases hnew : acornVals g.M g.vals = g.seed <;>
      simp [Acorn.next, hnew] at h ⊢
  · intro g hw
    have key : ((g.val ++ [lfNextNumber g]).drop 1) =
        g.val.tail ++ [lfNextNumber g] := by
      cases hv : g.val with
      | nil => exact absurd hv hw
      | cons a t => simp
    by_cases hcond : g.val.tail ++ [lfNextNumber g] = g.value
    · simp [LaggedFibonacci.next, key, hcond, List.drop_one]
    · simp [LaggedFibonacci.next, key, hcond, List.drop_one]

/-- Witness for exhaust_state_effects: an immediately exhausting Acorn
instance keeps its vals, and laggedDemo's advance carries the slid
window. -/
theorem exhaust_state_effects_witness :
    (Acorn.next { vals := [0], M := 1, seed := [0] }).1 =
      { vals := [0], M := 1, seed := [0] } ∧
    (LaggedFibonacci.next laggedDemo).1.val =
      laggedDemo.val.drop 1 ++ [lfNextNumber laggedDemo] :=
  ⟨exhaust_state_effects.1 { vals := [0], M := 1, seed := [0] }
      (by decide) (by decide),
    exhaust_state_effects.2.1 laggedDemo (by decide)⟩

/-- Folding the digit-reading step from an accumulator a scales a by the
weight of the remaining digits. -/
theorem msfVal_foldl (s : List Nat) :
    ∀ a : Nat, s.foldl (fun x d => 10 * x + d) a =
      a * 10 ^ s.length + msfVal s := by
  induction s with
  | nil => intro a; simp [msfVal]
  | cons d t ih =>
    intro a
    have h2 : msfVal (d :: t) = d * 10 ^ t.length + msfVal t := by
      show List.foldl (fun x d => 10 * x + d) (10 * 0 + d) t =
        d * 10 ^ t.length + msfVal t
      rw [ih]
      norm_num
    rw [List.foldl_cons]
    show List.foldl (fun x d => 10 * x + d) (10 * a + d) t =
      a * 10 ^ (d :: t).length + msfVal (d :: t)
    rw [ih, h2, List.length_cons]
    ring

/-- Reading a cons digit string. -/
theorem msfVal_cons (d : Nat) (t : List Nat) :
    msfVal (d :: t) = d * 10 ^ t.length + msfVal t := by
  show List.foldl (fun x d => 10 * x + d) (10 * 0 + d) t =
    d * 10 ^ t.length + msfVal t
  rw [msfVal_foldl]
  norm_num

/-- Reading an appended digit string. -/
theorem msfVal_append (x y : List Nat) :
    msfVal (x ++ y) = msfVal x * 10 ^ y.length + msfVal y := by
  unfold msfVal
  rw [List.foldl_append]
  exact msfVal_foldl y _

/-- A digit string of digits below 10 reads back below 10 ^ length. -/
theorem msfVal_lt (s : List Nat) (h : ∀ d ∈ s, d < 10) :
    msfVal s < 10 ^ s.length := by
  induction s with
  | nil => simp [msfVal]
  | cons d t ih =>
    rw [msfVal_cons, List.length_cons]
    have hd : d < 10 := h d (List.mem_cons_self d t)
    have ht : msfVal t < 10 ^ t.length :=
      ih (fun y hy => h y (List.mem_cons_of_mem d hy))
    calc d * 10 ^ t.length + msfVal t
        < d * 10 ^ t.length + 10 ^ t.length := by omega
      _ = (d + 1) * 10 ^ t.length := by ring
      _ ≤ 10 * 10 ^ t.length := Nat.mul_le_mul_right _ (by omega)
      _ = 10 ^ (t.length + 1) := by ring

/-- A string of zero digits reads back as zero. -/
theorem msfVal_replicate (k : Nat) : msfVal (List.replicate k 0) = 0 := by
  induction k with
  | zero => rfl
  | succ n ih => rw [List.replicate_succ, msfVal_cons, ih]; simp

/-- Zero padding does not change the value a digit string reads back to. -/
theorem msfVal_zfill (w : Nat) (s : List Nat) :
    msfVal (zfill w s) = msfVal s := by
  unfold zfill
  rw [msfVal_append, msfVal_replicate]
  simp

/-- Padding a short enough string yields exactly the requested width. -/
theorem zfill_length (w : Nat) (s : List Nat) (h : s.length ≤ w) :
    (zfill w s).length = w := by
  simp [zfill]
  omega

/-- Reading a reversed digit list is Nat.ofDigits of the original list. -/
theorem msfVal_reverse (l : List Nat) :
    msfVal l.reverse = Nat.ofDigits 10 l := by
  induction l with
  | nil => rfl
  | cons d t ih =>
    rw [List.reverse_cons, msfVal_append, ih, Nat.ofDigits_cons]
    have h1 : msfVal [d] = d := by simp [msfVal]
    simp [h1]
    ring

/-- The decimal string of n reads back as n. -/
theorem msfVal_msDigits (n : Nat) : msfVal (msDigits n) = n := by
  unfold msDigits
  split
  · rename_i h; rw [h]; simp [msfVal]
  · rw [msfVal_reverse, Nat.ofDigits_digits]

/-- Every character of the decimal string of n is a digit below 10. -/
theorem msDigits_lt (n : Nat) : ∀ d ∈ msDigits n, d < 10 := by
  intro d hd
  unfold msDigits at hd
  split at hd
  · simp at hd; omega
  · rw [List.mem_reverse] at hd
    exact Nat.digits_lt_base (by norm_num) hd

/-- A number below 10 ^ w has a decimal string of at most w characters. -/
theorem msDigits_length_le (n w : Nat) (hw : 0 < w) (h : n < 10 ^ w) :
    (msDigits n).length ≤ w := by
  unfold msDigits
  split
  · simpa using hw
  · rename_i hn
    rw [List.length_reverse, Nat.digits_len 10 n (by norm_num) hn]
    have := Nat.log_lt_of_lt_pow hn h
    omega

/-- Reading the middle block of a three-block digit string: shift away the
low block and mod away the high block. -/
theorem msfVal_three (A B C : List Nat) (hB : ∀ d ∈ B, d < 10)
    (hC : ∀ d ∈ C, d < 10) :
    msfVal (A ++ B ++ C) / 10 ^ C.length % 10 ^ B.length = msfVal B := by
  have hBlt := msfVal_lt B hB
  have hClt := msfVal_lt C hC
  have hP : 0 < (10 : Nat) ^ C.length := pow_pos (by norm_num) _
  rw [msfVal_append, msfVal_append]
  rw [Nat.mul_comm (msfVal A * 10 ^ B.length + msfVal B) (10 ^ C.length)]
  rw [Nat.mul_add_div hP, Nat.div_eq_of_lt hClt, Nat.add_zero]
  rw [Nat.mul_comm (msfVal A) (10 ^ B.length), Nat.mul_add_mod]
  exact Nat.mod_eq_of_lt hBlt

/-- Reading a slice of a digit string of digits below 10: Python's
int(s[a : a + t]) equals the value of s shifted and truncated. -/
theorem msfVal_slice (s : List Nat) (hdig : ∀ d ∈ s, d < 10) (a t : Nat)
    (h : a + t ≤ s.length) :
    msfVal ((s.drop a).take t) =
      msfVal s / 10 ^ (s.length - (a + t)) % 10 ^ t := by
  have hsplit : s.take a ++ (s.drop a).take t ++ (s.drop a).drop t = s := by
    rw [List.append_assoc, List.take_append_drop, List.take_append_drop]
  have hlenB : ((s.drop a).take t).length = t := by
    rw [List.length_take, List.length_drop]; omega
  have hlenC : ((s.drop a).drop t).length = s.length - (a + t) := by
    rw [List.length_drop, List.length_drop]; omega
  have hB : ∀ d ∈ (s.drop a).take t, d < 10 := fun d hd =>
    hdig d (List.drop_subset _ _ (List.take_subset _ _ hd))
  have hC : ∀ d ∈ (s.drop a).drop t, d < 10 := fun d hd =>
    hdig d (List.drop_subset _ _ (List.drop_subset _ _ hd))
  have key := msfVal_three (s.take a) ((s.drop a).take t)
    ((s.drop a).drop t) hB hC
  rw [hlenB, hlenC, hsplit] at key
  exact key.symm

/-- Claim C3: MiddleSquare.__next__ squares the current value, zero-pads
its decimal string to exactly 2 * digit_count characters (the stated
padding width is exact whenever the square fits in 2 * digit_count
digits, which every reachable state satisfies), takes the middle
digit_count characters as the new value (arithmetically: square divided
by 10 ^ (digit_count / 2), mod 10 ^ digit_count), and signals exhaustion
exactly when this value is already in the seen_numbers set of all
previously emitted values; otherwise it emits the value and records
it. -/
theorem middle_square_advance (g : MiddleSquare) (e : Nat)
    (he : g.ndigits = 2 * e) (he0 : 0 < e)
    (hval : (g.val * g.val).toNat < 10 ^ (2 * g.ndigits)) :
    (zfill (2 * g.ndigits) (msDigits (g.val * g.val).toNat)).length =
      2 * g.ndigits ∧
    msNewVal g.val g.ndigits =
      (g.val * g.val).toNat / 10 ^ (g.ndigits / 2) % 10 ^ g.ndigits ∧
    ((g.next).2 = none ↔
      ((msNewVal g.val g.ndigits : Int) ∈ g.seen_numbers)) ∧
    ((msNewVal g.val g.ndigits : Int) ∉ g.seen_numbers →
      g.next =
        ({ val := (msNewVal g.val g.ndigits : Int), ndigits := g.ndigits,
           seen_numbers :=
             insert ((msNewVal g.val g.ndigits : Int)) g.seen_numbers },
         some ((msNewVal g.val g.ndigits : Int)))) := by
  have hlen : (msDigits (g.val * g.val).toNat).length ≤ 2 * g.ndigits :=
    msDigits_length_le _ _ (by omega) hval
  have hzlen := zfill_length (2 * g.ndigits)
    (msDigits (g.val * g.val).toNat) hlen
  have hdigS : ∀ d ∈ zfill (2 * g.ndigits)
      (msDigits (g.val * g.val).toNat), d < 10 := by
    intro d hd
    unfold zfill at hd
    rcases List.mem_append.mp hd with hd1 | hd2
    · have := List.eq_of_mem_replicate hd1; omega
    · exact msDigits_lt _ d hd2
  refine ⟨hzlen, ?_, ?_, ?_⟩
  · have ha : g.ndigits / 2 = e := by omega
    have ht : 3 * g.ndigits / 2 - g.ndigits / 2 = 2 * e := by omega
    have hS := msfVal_slice
      (zfill (2 * g.ndigits) (msDigits (g.val * g.val).toNat)) hdigS e
      (2 * e) (by rw [hzlen]; omega)
    unfold msNewVal
    rw [ht, ha, hS, msfVal_zfill, msfVal_msDigits, hzlen]
    have hexp : 2 * g.ndigits - (e + 2 * e) = e := by omega
    rw [hexp, he]
  · unfold MiddleSquare.next
    by_cases h : (msNewVal g.val g.ndigits : Int) ∈ g.seen_numbers <;>
      simp [h]
  · intro h
    simp [MiddleSquare.next, h]

/-- Witness for middle_square_advance at the state with value 10 and
digit count 2: the middle-square step extracts 100 / 10 mod 100 = 10. -/
theorem middle_square_advance_witness :
    msNewVal (10 : Int) 2 =
      ((10 : Int) * 10).toNat / 10 ^ (2 / 2) % 10 ^ 2 :=
  (middle_square_advance { val := 10, ndigits := 2, seen_numbers := ∅ } 1
    rfl (by decide) (by decide)).2.1
